import Mathlib

/-!
Shallow embedding of the QAOA variational-circuit evaluation loop from the
notebook 07_Variational_Circuits (qiskit version) and its coding-assignment
variant.  The notebook works on `n_qubits = 2`, so states are vectors over
`Fin 4` (basis index `i = 2*q1 + q0`, little-endian as in Qiskit) and
operators are 4x4 complex matrices.  Qiskit opflow `(angle * H).exp_i()`
denotes the exact matrix exponential `exp (-i * angle * H)`; for the
Hamiltonians used here (sums of pairwise commuting Pauli terms) the Suzuki
expansion used by the notebook backend is exact, so `evolve` is embedded as
the matrix exponential itself.
-/

namespace VarCircuits

open Matrix

/-- Operators on the two-qubit state space: 4x4 complex matrices. -/
abbrev Mat4 := Matrix (Fin 4) (Fin 4) ℂ

/-- Two-qubit state vectors (amplitudes indexed by basis states). -/
abbrev QState := Fin 4 → ℂ

/-- Bit `q` of the two-bit basis index `i` (qubit `q` in Qiskit convention). -/
def bitOf (q : Fin 2) (i : Fin 4) : ℕ := i.val / 2 ^ q.val % 2

/-- Flip bit `q` of the basis index `i`. -/
def flipBitOf (q : Fin 2) (i : Fin 4) : Fin 4 :=
  ⟨i.val ^^^ 2 ^ q.val, by fin_cases q <;> fin_cases i <;> decide⟩

/-- Matrix of the Pauli X operator acting on qubit `q` of two qubits
(`Pauli(0, e_q)` in the notebook): it permutes the basis by flipping bit `q`. -/
def Xop (q : Fin 2) : Mat4 :=
  Matrix.of fun i j => if j = flipBitOf q i then (1 : ℂ) else 0

/-- Matrix of the Pauli Z operator acting on qubit `q` of two qubits
(`Pauli(e_q, 0)` in the notebook): diagonal with sign `(-1) ^ bit q`. -/
def Zop (q : Fin 2) : Mat4 :=
  Matrix.diagonal fun i => ((-1 : ℂ)) ^ bitOf q i

/-- Notebook `pauli_x(qubit, coeff)`: the X operator on `qubit` scaled by
`coeff`. -/
noncomputable def pauli_x (qubit : Fin 2) (coeff : ℝ) : Mat4 := (coeff : ℂ) • Xop qubit

/-- Notebook `pauli_z(qubit, coeff)`. -/
noncomputable def pauli_z (qubit : Fin 2) (coeff : ℝ) : Mat4 := (coeff : ℂ) • Zop qubit

/-- Notebook `product_pauli_z(q1, q2, coeff)`: scaled product of two Z
operators. -/
noncomputable def product_pauli_z (q1 q2 : Fin 2) (coeff : ℝ) : Mat4 :=
  (coeff : ℂ) • (Zop q1 * Zop q2)

/-- Notebook mixing Hamiltonian `Hm = SummedOp([pauli_x(i, -1) for i in
range(n_qubits)])` with `n_qubits = 2`. -/
noncomputable def Hm : Mat4 := ∑ i : Fin 2, pauli_x i (-1)

/-- Notebook coupling matrix `J = np.array([[0,1],[0,0]])`. -/
noncomputable def Jcoup : Fin 2 → Fin 2 → ℝ := fun i j => if i = 0 ∧ j = 1 then 1 else 0

/-- Notebook cost Hamiltonian
`Hc = SummedOp([product_pauli_z(i, j, -J[i,j]) for i,j in product(range(2), repeat=2)])`. -/
noncomputable def Hc : Mat4 := ∑ i : Fin 2, ∑ j : Fin 2, product_pauli_z i j (-(Jcoup i j))

/-- The mixing Hamiltonian the coding-assignment grader asserts against:
the sum of the two single-qubit X operators (`'(1+0j)*X{i}'` terms). -/
noncomputable def Hm_assignment : Mat4 := ∑ i : Fin 2, pauli_x i 1

/-- The coding-assignment cost Hamiltonian `H_c = -Z0 Z1 - 0.5 * Z0`. -/
noncomputable def Hc_assignment : Mat4 := product_pauli_z 0 1 (-1) + pauli_z 0 (-(1 / 2))

/-- Notebook `init_state_vect = [1 for i in range(2 ** n_qubits)]`. -/
def init_state_vect : QState := fun _ => 1

/-- Notebook `init_state = VectorStateFn(init_state_vect, coeff=1/np.sqrt(2 ** n_qubits))`:
the uniform superposition over the four basis states. -/
noncomputable def init_state : QState :=
  (((1 / Real.sqrt (2 ^ 2) : ℝ) : ℂ)) • init_state_vect

/-- Notebook `evolve(hamiltonian, angle) = (angle * hamiltonian).exp_i()`:
the time-evolution operator `exp (-i * angle * hamiltonian)`. -/
noncomputable def evolve (hamiltonian : Mat4) (angle : ℝ) : Mat4 :=
  NormedSpace.exp ℂ ((-((angle : ℂ) * Complex.I)) • hamiltonian)

/-- The list `[evolve(Hmix, beta[i]) @ evolve(Hcost, gamma[i]) for i in range(p)]`
built by `create_circuit`.  Indexing `beta[i]`/`gamma[i]` past the end of the
list is a Python `IndexError`, modelled by `none`. -/
noncomputable def circuit_factors (Hmix Hcost : Mat4) (beta gamma : List ℝ) :
    ℕ → Option (List Mat4)
  | 0 => some []
  | p + 1 => do
      let prev ← circuit_factors Hmix Hcost beta gamma p
      let b ← beta[p]?
      let g ← gamma[p]?
      some (prev ++ [evolve Hmix b * evolve Hcost g])

/-- Notebook `create_circuit(beta, gamma) = ComposedOp([evolve(Hm, beta[i]) @
evolve(Hc, gamma[i]) for i in range(p)] + [init_state])`: the state obtained by
applying the product of the `p` step unitaries to the initial state.  The
ambient globals `Hm`, `Hc` and the depth `p` are explicit parameters here. -/
noncomputable def create_circuit (Hmix Hcost : Mat4) (p : ℕ) (beta gamma : List ℝ) :
    Option QState :=
  (circuit_factors Hmix Hcost beta gamma p).map fun factors => factors.prod *ᵥ init_state

/-- The complex expectation value of the observable `H` in the state `ψ`. -/
noncomputable def expectation (H : Mat4) (ψ : QState) : ℂ := star ψ ⬝ᵥ (H *ᵥ ψ)

/-- Notebook `evaluate_hamiltonian(beta_gamma, hamiltonian)`: split the input
at `n = len(beta_gamma) // 2` into `beta_gamma[:n]` and `beta_gamma[n:]`,
build the circuit, and return the real part of the expectation value of
`hamiltonian` in the prepared state (the statevector-simulator pipeline
`sampled_trotter_exp_op.eval().real`). -/
noncomputable def evaluate_hamiltonian (Hmix Hcost : Mat4) (p : ℕ)
    (beta_gamma : List ℝ) (hamiltonian : Mat4) : Option ℝ :=
  let n := beta_gamma.length / 2
  (create_circuit Hmix Hcost p (beta_gamma.take n) (beta_gamma.drop n)).map
    fun ψ => (expectation hamiltonian ψ).re

/-- Spec-side description of the prepared state: starting from the uniform
superposition, the alternating evolutions are applied so that the resulting
state is `U(Hmix, b0) U(Hcost, g0) ⋯ U(Hmix, b(p-1)) U(Hcost, g(p-1))`
applied to `init_state`, matching the notebook formula
`U = U(H0, beta0) U(H1, gamma0) ... U(H0, beta_p) U(H1, gamma_p)`. -/
noncomputable def alternating_evolution_state (Hmix Hcost : Mat4) :
    List (ℝ × ℝ) → QState
  | [] => init_state
  | (b, g) :: rest =>
      evolve Hmix b *ᵥ (evolve Hcost g *ᵥ alternating_evolution_state Hmix Hcost rest)


lemma Xop_zero_eq : Xop 0 = !![0, 1, 0, 0; 1, 0, 0, 0; 0, 0, 0, 1; 0, 0, 1, 0] := by
  ext i j
  fin_cases i <;> fin_cases j <;>
    simp +decide [Xop, flipBitOf, Matrix.vecHead, Matrix.vecTail]

lemma Xop_one_eq : Xop 1 = !![0, 0, 1, 0; 0, 0, 0, 1; 1, 0, 0, 0; 0, 1, 0, 0] := by
  ext i j
  fin_cases i <;> fin_cases j <;>
    simp +decide [Xop, flipBitOf, Matrix.vecHead, Matrix.vecTail]

lemma Zop_zero_eq : Zop 0 = Matrix.diagonal ![1, -1, 1, -1] := by
  ext i j
  fin_cases i <;> fin_cases j <;> simp +decide [Zop, bitOf, Matrix.diagonal]

lemma Zop_one_eq : Zop 1 = Matrix.diagonal ![1, 1, -1, -1] := by
  ext i j
  fin_cases i <;> fin_cases j <;> simp +decide [Zop, bitOf, Matrix.diagonal]

lemma Hm_eq : Hm = !![0, -1, -1, 0; -1, 0, 0, -1; -1, 0, 0, -1; 0, -1, -1, 0] := by
  rw [Hm, Fin.sum_univ_two, pauli_x, pauli_x, Xop_zero_eq, Xop_one_eq]
  ext i j
  fin_cases i <;> fin_cases j <;>
    simp +decide [Matrix.vecHead, Matrix.vecTail] <;> norm_num

lemma ZZprod_eq : Zop 0 * Zop 1 = Matrix.diagonal ![1, -1, -1, 1] := by
  rw [Zop, Zop, Matrix.diagonal_mul_diagonal]
  ext i j
  fin_cases i <;> fin_cases j <;> simp +decide [bitOf, Matrix.diagonal]

lemma Hc_eq : Hc = Matrix.diagonal ![-1, 1, 1, -1] := by
  rw [Hc]
  simp only [Fin.sum_univ_two, product_pauli_z, Jcoup, ZZprod_eq]
  ext i j
  fin_cases i <;> fin_cases j <;>
    simp +decide [Matrix.diagonal, Matrix.vecHead, Matrix.vecTail] <;> norm_num

lemma Hm_assignment_eq :
    Hm_assignment = !![0, 1, 1, 0; 1, 0, 0, 1; 1, 0, 0, 1; 0, 1, 1, 0] := by
  rw [Hm_assignment, Fin.sum_univ_two, pauli_x, pauli_x, Xop_zero_eq, Xop_one_eq]
  ext i j
  fin_cases i <;> fin_cases j <;>
    simp +decide [Matrix.vecHead, Matrix.vecTail] <;> norm_num

lemma Hc_assignment_eq :
    Hc_assignment = Matrix.diagonal ![-(3 / 2), 3 / 2, 1 / 2, -(1 / 2)] := by
  rw [Hc_assignment, product_pauli_z, pauli_z, ZZprod_eq, Zop_zero_eq,
    ← Matrix.diagonal_smul, ← Matrix.diagonal_smul, Matrix.diagonal_add,
    Matrix.diagonal_eq_diagonal_iff]
  intro i
  fin_cases i <;> push_cast <;> norm_num [Matrix.vecHead, Matrix.vecTail]

lemma init_state_eq : init_state = fun _ => (1 / 2 : ℂ) := by
  have h4 : Real.sqrt (2 ^ 2) = 2 := Real.sqrt_sq (by norm_num)
  funext i
  simp [init_state, init_state_vect, h4]


/-- C2: constructing the mixing Hamiltonian for two qubits as the sum of the
two single-qubit X operators yields the fixed 4x4 matrix
`[[0,1,1,0],[1,0,0,1],[1,0,0,1],[0,1,1,0]]`, and the cost Hamiltonian for
`H_c = -Z0 Z1 - 0.5 * Z0` is diagonal with entries `[-1.5, 1.5, 0.5, -0.5]`. -/
theorem hamiltonian_fixtures :
    Hm_assignment = !![0, 1, 1, 0; 1, 0, 0, 1; 1, 0, 0, 1; 0, 1, 1, 0] ∧
    Hc_assignment = Matrix.diagonal ![-1.5, 1.5, 0.5, -0.5] := by
  refine ⟨Hm_assignment_eq, ?_⟩
  rw [Hc_assignment_eq, Matrix.diagonal_eq_diagonal_iff]
  intro i
  fin_cases i <;> norm_num [Matrix.vecHead, Matrix.vecTail]

lemma circuit_factors_eq (Hmix Hcost : Mat4) (beta gamma : List ℝ) (p : ℕ)
    (hb : p ≤ beta.length) (hg : p ≤ gamma.length) :
    circuit_factors Hmix Hcost beta gamma p =
      some (((beta.take p).zip (gamma.take p)).map
        fun bg => evolve Hmix bg.1 * evolve Hcost bg.2) := by
  induction p with
  | zero => simp [circuit_factors]
  | succ q ih =>
      have hbq : q < beta.length := hb
      have hgq : q < gamma.length := hg
      rw [circuit_factors, ih (Nat.le_of_succ_le hb) (Nat.le_of_succ_le hg)]
      rw [List.getElem?_eq_getElem hbq, List.getElem?_eq_getElem hgq]
      have hlen : (beta.take q).length = (gamma.take q).length := by
        simp [List.length_take]
        omega
      have htb : beta.take (q + 1) = beta.take q ++ [beta[q]] := by
        rw [List.take_succ, List.getElem?_eq_getElem hbq]
        simp
      have htg : gamma.take (q + 1) = gamma.take q ++ [gamma[q]] := by
        rw [List.take_succ, List.getElem?_eq_getElem hgq]
        simp
      rw [htb, htg, List.zip_append hlen]
      simp

lemma prod_mulVec_alternating (Hmix Hcost : Mat4) (l : List (ℝ × ℝ)) :
    (l.map fun bg => evolve Hmix bg.1 * evolve Hcost bg.2).prod *ᵥ init_state =
      alternating_evolution_state Hmix Hcost l := by
  induction l with
  | nil => simp [alternating_evolution_state]
  | cons x xs ih =>
      obtain ⟨b, g⟩ := x
      simp only [List.map_cons, List.prod_cons, alternating_evolution_state]
      rw [← ih]
      simp [mul_assoc]

lemma create_circuit_eq (Hmix Hcost : Mat4) (p : ℕ) (beta gamma : List ℝ)
    (hb : p ≤ beta.length) (hg : p ≤ gamma.length) :
    create_circuit Hmix Hcost p beta gamma =
      some (alternating_evolution_state Hmix Hcost ((beta.take p).zip (gamma.take p))) := by
  rw [create_circuit, circuit_factors_eq Hmix Hcost beta gamma p hb hg]
  simp [prod_mulVec_alternating]

lemma evaluate_eq (Hmix Hcost H : Mat4) (p : ℕ) (v : List ℝ)
    (h1 : p ≤ v.length / 2) :
    evaluate_hamiltonian Hmix Hcost p v H =
      some ((expectation H (alternating_evolution_state Hmix Hcost
        (((v.take (v.length / 2)).take p).zip ((v.drop (v.length / 2)).take p)))).re) := by
  have hb : p ≤ (v.take (v.length / 2)).length := by
    simp [List.length_take]
    omega
  have hg : p ≤ (v.drop (v.length / 2)).length := by
    simp [List.length_drop]
    omega
  rw [evaluate_hamiltonian]
  rw [create_circuit_eq Hmix Hcost p _ _ hb hg]
  rfl

lemma evaluate_even_split (Hmix Hcost H : Mat4) (p : ℕ)
    (v : List ℝ) (hv : v.length = 2 * p) :
    evaluate_hamiltonian Hmix Hcost p v H =
      some ((expectation H (alternating_evolution_state Hmix Hcost
        ((v.take p).zip (v.drop p)))).re) := by
  have hn : v.length / 2 = p := by omega
  have h := evaluate_eq Hmix Hcost H p v (by omega)
  rw [hn] at h
  have htk : (v.take p).take p = v.take p := by
    rw [List.take_take]
    simp
  have hdp : (v.drop p).take p = v.drop p :=
    List.take_of_length_le (by rw [List.length_drop]; omega)
  rw [h, htk, hdp]

/-- C1: an input vector of even length `2 p` is split into `beta`, its first
half, and `gamma`, its second half, and the objective returns the (real part
of the) expectation of the measured Hamiltonian in the state obtained by
applying, in order, the `p` alternating evolutions
`U(Hmix, beta i) U(Hcost, gamma i)` to the uniform-superposition initial
state. -/
theorem evaluate_hamiltonian_splits_and_alternates (Hmix Hcost H : Mat4) (p : ℕ)
    (v : List ℝ) (hv : v.length = 2 * p) :
    evaluate_hamiltonian Hmix Hcost p v H =
      some ((expectation H (alternating_evolution_state Hmix Hcost
        ((v.take p).zip (v.drop p)))).re) :=
  evaluate_even_split Hmix Hcost H p v hv

/-- Witness for the C1 theorem at the concrete input `p = 1`, `v = [0, 0]`. -/
theorem evaluate_hamiltonian_splits_and_alternates_witness :
    ([(0 : ℝ), 0].length = 2 * 1) ∧
    evaluate_hamiltonian Hm Hc 1 [0, 0] Hc =
      some ((expectation Hc (alternating_evolution_state Hm Hc
        (([(0 : ℝ), 0].take 1).zip ([(0 : ℝ), 0].drop 1)))).re) :=
  ⟨by simp, evaluate_hamiltonian_splits_and_alternates Hm Hc Hc 1 [0, 0] (by simp)⟩



lemma evolve_zero (H : Mat4) : evolve H 0 = 1 := by
  rw [evolve]
  norm_num

lemma alternating_zero (Hmix Hcost : Mat4) (l : List (ℝ × ℝ))
    (hl : ∀ x ∈ l, x = ((0 : ℝ), (0 : ℝ))) :
    alternating_evolution_state Hmix Hcost l = init_state := by
  induction l with
  | nil => rfl
  | cons x xs ih =>
      obtain rfl : x = ((0 : ℝ), (0 : ℝ)) := hl x (by simp)
      rw [show alternating_evolution_state Hmix Hcost (((0 : ℝ), (0 : ℝ)) :: xs) =
          evolve Hmix 0 *ᵥ (evolve Hcost 0 *ᵥ alternating_evolution_state Hmix Hcost xs)
        from rfl]
      rw [ih (fun y hy => hl y (List.mem_cons_of_mem _ hy)), evolve_zero, evolve_zero]
      simp

lemma evaluate_of_zero_input (Hmix Hcost H : Mat4) (p : ℕ) (v : List ℝ)
    (hp : p ≤ v.length / 2) (hz : ∀ x ∈ v, x = 0) :
    evaluate_hamiltonian Hmix Hcost p v H = some ((expectation H init_state).re) := by
  rw [evaluate_eq Hmix Hcost H p v hp]
  have hstate : alternating_evolution_state Hmix Hcost
      (((v.take (v.length / 2)).take p).zip ((v.drop (v.length / 2)).take p)) =
        init_state := by
    apply alternating_zero
    intro x hx
    obtain ⟨h1, h2⟩ := List.of_mem_zip hx
    have e1 : x.1 = 0 := hz _ (List.take_subset _ _ (List.take_subset _ _ h1))
    have e2 : x.2 = 0 := hz _ (List.drop_subset _ _ (List.take_subset _ _ h2))
    exact Prod.ext e1 e2
  rw [hstate]

/-- C3: for every depth `p`, the objective applied to the all-zero parameter
vector of length `2 p` returns exactly the (real) expectation of the cost
observable in the untouched uniform-superposition initial state. -/
theorem evaluate_zero_vector_gives_init_expectation (p : ℕ) :
    evaluate_hamiltonian Hm Hc p (List.replicate (2 * p) 0) Hc =
      some ((expectation Hc init_state).re) := by
  apply evaluate_of_zero_input
  · simp
  · intro x hx
    exact List.eq_of_mem_replicate hx



lemma expectation_Hc_init : expectation Hc init_state = 0 := by
  rw [expectation, Hc_eq, init_state_eq]
  simp [Matrix.dotProduct, Matrix.mulVec, Matrix.diagonal, Fin.sum_univ_four,
    Matrix.vecHead, Matrix.vecTail]

/-- A non-Hermitian observable: a single imaginary entry in the corner.  The
oracle interface accepts it, and the expectation it produces in the initial
state has a non-negligible imaginary part. -/
noncomputable def Hbad : Mat4 := Matrix.of fun i j => if i = 0 ∧ j = 0 then Complex.I else 0

lemma expectation_Hbad_init : expectation Hbad init_state = Complex.I / 4 := by
  rw [expectation, Hbad, init_state_eq]
  simp [Matrix.dotProduct, Matrix.mulVec, Fin.sum_univ_four]
  norm_num [Complex.ext_iff]

/-- C5 counterexample: with observable `Hbad` and parameter vector `[0, 0]`
the expectation value is `I / 4`, whose imaginary part `1/4` is not
negligible, yet the objective silently returns `some 0` (the real part)
instead of reporting an error. -/
theorem imaginary_part_silently_truncated_cex :
    (expectation Hbad init_state).im ≠ 0 ∧
    evaluate_hamiltonian Hm Hc 1 [0, 0] Hbad = some 0 ∧
    evaluate_hamiltonian Hm Hc 1 [0, 0] Hbad ≠ none := by
  have he : evaluate_hamiltonian Hm Hc 1 [0, 0] Hbad = some 0 := by
    rw [evaluate_of_zero_input Hm Hc Hbad 1 [0, 0] (by norm_num)
      (by intro x hx; simp at hx; tauto)]
    rw [expectation_Hbad_init]
    norm_num
  refine ⟨?_, he, by rw [he]; simp⟩
  rw [expectation_Hbad_init]
  norm_num [Complex.ext_iff]

/-- C5 amended: when the expectation value for a parameter vector has a
non-negligible imaginary part, the objective does not report an error: it
silently truncates, returning the real part of the complex expectation. -/
theorem evaluate_truncates_nonreal_expectation (Hmix Hcost H : Mat4) (p : ℕ)
    (v : List ℝ) (ψ : QState)
    (hc : create_circuit Hmix Hcost p (v.take (v.length / 2)) (v.drop (v.length / 2)) =
      some ψ)
    (him : (expectation H ψ).im ≠ 0) :
    evaluate_hamiltonian Hmix Hcost p v H = some ((expectation H ψ).re) := by
  rw [evaluate_hamiltonian, hc]
  rfl

lemma create_circuit_zero_zero : create_circuit Hm Hc 1 [0] [0] = some init_state := by
  rw [create_circuit_eq Hm Hc 1 [0] [0] (by norm_num) (by norm_num)]
  congr 1
  apply alternating_zero
  intro x hx
  simp at hx
  exact hx

/-- Witness for the C5 amended theorem at `p = 1`, `v = [0, 0]`, observable
`Hbad`. -/
theorem evaluate_truncates_nonreal_expectation_witness :
    (create_circuit Hm Hc 1 ([(0 : ℝ), 0].take ([(0 : ℝ), 0].length / 2))
        ([(0 : ℝ), 0].drop ([(0 : ℝ), 0].length / 2)) = some init_state) ∧
    (expectation Hbad init_state).im ≠ 0 ∧
    evaluate_hamiltonian Hm Hc 1 [0, 0] Hbad = some ((expectation Hbad init_state).re) := by
  have h1 : create_circuit Hm Hc 1 ([(0 : ℝ), 0].take ([(0 : ℝ), 0].length / 2))
      ([(0 : ℝ), 0].drop ([(0 : ℝ), 0].length / 2)) = some init_state := by
    simpa using create_circuit_zero_zero
  have h2 : (expectation Hbad init_state).im ≠ 0 := by
    rw [expectation_Hbad_init]
    norm_num [Complex.ext_iff]
  exact ⟨h1, h2, evaluate_truncates_nonreal_expectation Hm Hc Hbad 1 [0, 0] init_state h1 h2⟩

/-- C6 counterexample: the malformed (odd-length) parameter vector
`[0, 0, 0]` is not rejected: the objective silently splits it at index 1 and
returns a value. -/
theorem odd_length_not_rejected_cex :
    evaluate_hamiltonian Hm Hc 1 [0, 0, 0] Hc = some 0 ∧
    evaluate_hamiltonian Hm Hc 1 [0, 0, 0] Hc ≠ none := by
  have he : evaluate_hamiltonian Hm Hc 1 [0, 0, 0] Hc = some 0 := by
    rw [evaluate_of_zero_input Hm Hc Hc 1 [0, 0, 0] (by norm_num)
      (by intro x hx; simp at hx; tauto)]
    rw [expectation_Hc_init]
    norm_num
  exact ⟨he, by rw [he]; simp⟩

/-- C6 amended: the objective performs no input-length validation at all: any
vector whose floor-half length is at least the ambient `p` is accepted (and
evaluated), odd lengths and wrong lengths included. -/
theorem evaluate_accepts_unvalidated_lengths (Hmix Hcost H : Mat4) (p : ℕ)
    (v : List ℝ) (h : p ≤ v.length / 2) :
    (evaluate_hamiltonian Hmix Hcost p v H).isSome := by
  rw [evaluate_eq Hmix Hcost H p v h]
  rfl

/-- Witness for the C6 amended theorem at `p = 1` and the odd-length vector
`[0, 0, 0]`. -/
theorem evaluate_accepts_unvalidated_lengths_witness :
    (1 ≤ [(0 : ℝ), 0, 0].length / 2) ∧
    (evaluate_hamiltonian Hm Hc 1 [0, 0, 0] Hc).isSome :=
  ⟨by norm_num, evaluate_accepts_unvalidated_lengths Hm Hc Hc 1 [0, 0, 0] (by norm_num)⟩

/-- C8: with the statevector-exact simulator as the expectation oracle the
objective is deterministic: it is a pure function of the parameter vector, so
two calls with the same vector return the same value. -/
theorem evaluate_deterministic (Hmix Hcost H : Mat4) (p : ℕ) (v1 v2 : List ℝ)
    (h : v1 = v2) :
    evaluate_hamiltonian Hmix Hcost p v1 H = evaluate_hamiltonian Hmix Hcost p v2 H := by
  rw [h]

/-- Witness for the C8 theorem: two calls at the vector `[0, 0]`. -/
theorem evaluate_deterministic_witness :
    ([(0 : ℝ), 0] = [(0 : ℝ), 0]) ∧
    evaluate_hamiltonian Hm Hc 1 [0, 0] Hc = evaluate_hamiltonian Hm Hc 1 [0, 0] Hc :=
  ⟨rfl, evaluate_deterministic Hm Hc Hc 1 [0, 0] [0, 0] rfl⟩



lemma circuit_factors_none (Hmix Hcost : Mat4) (beta gamma : List ℝ) (p : ℕ)
    (h : beta.length < p) :
    circuit_factors Hmix Hcost beta gamma p = none := by
  cases p with
  | zero => exact absurd h (by omega)
  | succ q =>
      have hb : beta[q]? = none := List.getElem?_eq_none (by omega)
      rw [circuit_factors]
      cases hcf : circuit_factors Hmix Hcost beta gamma q <;> simp [hcf, hb]

lemma evaluate_none (Hmix Hcost H : Mat4) (p : ℕ) (v : List ℝ)
    (h : v.length / 2 < p) :
    evaluate_hamiltonian Hmix Hcost p v H = none := by
  have hcf : circuit_factors Hmix Hcost (v.take (v.length / 2))
      (v.drop (v.length / 2)) p = none := by
    apply circuit_factors_none
    rw [List.length_take]
    omega
  rw [evaluate_hamiltonian]
  simp [create_circuit, hcf]

/-- C10: the objective has no input-length validation and takes the number of
evolution steps from the ambient global `p`, not from the input: for an input
of length `2 m` with `p ≤ m` the surplus entries of each half are silently
ignored (the result equals that for the first `p` entries of each half),
while for `m < p` circuit construction fails with an out-of-range index
access (modelled by `none`) before any expectation is computed. -/
theorem ambient_depth_controls_steps (Hmix Hcost H : Mat4) (p m : ℕ) (v : List ℝ)
    (hv : v.length = 2 * m) :
    (p ≤ m → evaluate_hamiltonian Hmix Hcost p v H =
      evaluate_hamiltonian Hmix Hcost p
        (((v.take m).take p) ++ ((v.drop m).take p)) H) ∧
    (m < p → evaluate_hamiltonian Hmix Hcost p v H = none) := by
  constructor
  · intro hpm
    have hn : v.length / 2 = m := by omega
    have hlb : ((v.take m).take p).length = p := by
      simp [List.length_take]
      omega
    have hlg : ((v.drop m).take p).length = p := by
      simp [List.length_take, List.length_drop]
      omega
    have h1 := evaluate_eq Hmix Hcost H p v (by omega)
    rw [hn] at h1
    have hwl : (((v.take m).take p) ++ ((v.drop m).take p)).length = 2 * p := by
      rw [List.length_append, hlb, hlg]
      omega
    have h2 := evaluate_eq Hmix Hcost H p (((v.take m).take p) ++ ((v.drop m).take p))
      (by omega)
    rw [hwl] at h2
    have hwn : 2 * p / 2 = p := by omega
    rw [hwn] at h2
    rw [h1, h2, List.take_left' hlb, List.drop_left' hlb,
      List.take_of_length_le (le_of_eq hlb), List.take_of_length_le (le_of_eq hlg)]
  · intro hmp
    exact evaluate_none Hmix Hcost H p v (by omega)

/-- Witness for the C10 theorem at `p = 1`, `m = 2`, `v = [0, 0, 0, 0]`. -/
theorem ambient_depth_controls_steps_witness :
    ([(0 : ℝ), 0, 0, 0].length = 2 * 2) ∧
    ((1 ≤ 2 → evaluate_hamiltonian Hm Hc 1 [0, 0, 0, 0] Hc =
      evaluate_hamiltonian Hm Hc 1
        ((([(0 : ℝ), 0, 0, 0].take 2).take 1) ++ (([(0 : ℝ), 0, 0, 0].drop 2).take 1)) Hc) ∧
     (2 < 1 → evaluate_hamiltonian Hm Hc 1 [0, 0, 0, 0] Hc = none)) :=
  ⟨by norm_num, ambient_depth_controls_steps Hm Hc Hc 1 2 [0, 0, 0, 0] (by norm_num)⟩



/-- The record returned by the classical optimizer driver (the fields of a
scipy `OptimizeResult`): final parameter vector `x`, objective value `fval`
(scipy calls it `fun`), evaluation count `nfev`, iteration count `nit`, and
the convergence-status flag `success`. -/
structure OptimizeResult where
  x : List ℝ
  fval : ℝ
  nfev : ℕ
  nit : ℕ
  success : Bool

/-- Modelled from the spec: the classical optimizer driver
(`scipy.optimize.minimize`, which the notebook calls but whose implementation
is not part of this repository).  Per spec sections 4.2, 6 and 7 it
repeatedly calls the objective (one evaluation per iteration here, `step`
being the search strategy's parameter update), terminates when the
convergence criterion holds or the evaluation/iteration budget is exhausted,
and reports non-convergence within the budget through the status field of the
returned record rather than by raising an error. -/
def minimize (objective : List ℝ → ℝ) (step : List ℝ → List ℝ)
    (convergedAt : List ℝ → Bool) : List ℝ → ℕ → ℕ → Except String OptimizeResult
  | x, nit, 0 => .ok ⟨x, objective x, nit + 1, nit, convergedAt x⟩
  | x, nit, budget + 1 =>
      if convergedAt x then .ok ⟨x, objective x, nit + 1, nit, true⟩
      else minimize objective step convergedAt (step x) (nit + 1) budget

/-- C9: the optimizer driver does not throw when it fails to converge within
its budget: for every objective, strategy, starting point and budget it
returns a result record whose status field equals the convergence check at
the returned parameter vector (so a non-converged run is reported with
`success = false`), together with the best objective value found there. -/
theorem minimize_reports_nonconvergence (objective : List ℝ → ℝ)
    (step : List ℝ → List ℝ) (convergedAt : List ℝ → Bool)
    (x0 : List ℝ) (nit0 budget : ℕ) :
    ∃ r : OptimizeResult,
      minimize objective step convergedAt x0 nit0 budget = .ok r ∧
        r.success = convergedAt r.x ∧ r.fval = objective r.x := by
  induction budget generalizing x0 nit0 with
  | zero => exact ⟨_, rfl, rfl, rfl⟩
  | succ b ih =>
      by_cases h : convergedAt x0
      · refine ⟨⟨x0, objective x0, nit0 + 1, nit0, true⟩, ?_, by simp [h], rfl⟩
        rw [minimize, if_pos h]
      · obtain ⟨r, hr, hs, hv⟩ := ih (step x0) (nit0 + 1)
        refine ⟨r, ?_, hs, hv⟩
        rw [minimize, if_neg h]
        exact hr



lemma evolve_conjTranspose_mul (H : Mat4) (hH : H.IsHermitian) (t : ℝ) :
    (evolve H t)ᴴ * evolve H t = 1 := by
  have hgen : ((-((t : ℂ) * Complex.I)) • H)ᴴ = -((-((t : ℂ) * Complex.I)) • H) := by
    rw [Matrix.conjTranspose_smul, hH.eq, ← neg_smul]
    congr 1
    simp [Complex.ext_iff]
  have key := Matrix.exp_add_of_commute (𝕂 := ℂ)
    (-((-((t : ℂ) * Complex.I)) • H)) ((-((t : ℂ) * Complex.I)) • H)
    ((Commute.refl _).neg_left)
  rw [neg_add_cancel] at key
  rw [evolve, ← Matrix.exp_conjTranspose, hgen, ← key]
  exact NormedSpace.exp_zero

lemma unitary_preserves_inner (U : Mat4) (hU : Uᴴ * U = 1) (ψ : QState) :
    star (U *ᵥ ψ) ⬝ᵥ (U *ᵥ ψ) = star ψ ⬝ᵥ ψ := by
  rw [Matrix.star_mulVec, Matrix.dotProduct_mulVec, Matrix.vecMul_vecMul, hU,
    Matrix.vecMul_one]

lemma factors_unitary (Hmix Hcost : Mat4) (hm : Hmix.IsHermitian)
    (hc : Hcost.IsHermitian) (beta gamma : List ℝ) (p : ℕ) (L : List Mat4)
    (h : circuit_factors Hmix Hcost beta gamma p = some L) :
    L.prodᴴ * L.prod = 1 := by
  induction p generalizing L with
  | zero =>
      rw [circuit_factors] at h
      rw [show L = [] from (Option.some.injEq _ _ ▸ h).symm]
      simp
  | succ q ih =>
      rw [circuit_factors] at h
      rcases hcf : circuit_factors Hmix Hcost beta gamma q with _ | P
      · rw [hcf] at h
        simp at h
      · rw [hcf] at h
        rcases hb : beta[q]? with _ | b
        · rw [hb] at h
          simp at h
        · rw [hb] at h
          rcases hg : gamma[q]? with _ | g
          · rw [hg] at h
            simp at h
          · rw [hg] at h
            simp at h
            subst h
            have hB : (evolve Hmix b * evolve Hcost g)ᴴ *
                (evolve Hmix b * evolve Hcost g) = 1 := by
              rw [Matrix.conjTranspose_mul, mul_assoc,
                ← mul_assoc ((evolve Hmix b)ᴴ), evolve_conjTranspose_mul Hmix hm,
                one_mul, evolve_conjTranspose_mul Hcost hc]
            rw [List.prod_append, List.prod_singleton, Matrix.conjTranspose_mul,
              mul_assoc, ← mul_assoc (P.prodᴴ), ih P hcf, one_mul, hB]

lemma init_inner : star init_state ⬝ᵥ init_state = 1 := by
  rw [init_state_eq]
  simp [Matrix.dotProduct, Fin.sum_univ_four]
  norm_num [Complex.ext_iff]

lemma expectation_diagonal_re_ge (d : Fin 4 → ℝ) (c : ℝ) (hc : ∀ k, c ≤ d k)
    (ψ : QState) (hψ : star ψ ⬝ᵥ ψ = 1) :
    c ≤ (expectation (Matrix.diagonal fun k => ((d k : ℝ) : ℂ)) ψ).re := by
  have hterm : ∀ k : Fin 4, star (ψ k) * (((d k : ℝ) : ℂ) * ψ k) =
      ((d k * Complex.normSq (ψ k) : ℝ) : ℂ) := by
    intro k
    rw [mul_left_comm, Complex.star_def]
    rw [show (starRingEnd ℂ) (ψ k) * ψ k = ((Complex.normSq (ψ k) : ℝ) : ℂ) from
      Complex.normSq_eq_conj_mul_self.symm]
    push_cast
    ring
  have hexp : (expectation (Matrix.diagonal fun k => ((d k : ℝ) : ℂ)) ψ).re =
      ∑ k, d k * Complex.normSq (ψ k) := by
    rw [expectation]
    rw [show (star ψ ⬝ᵥ ((Matrix.diagonal fun k => ((d k : ℝ) : ℂ)) *ᵥ ψ)) =
        ∑ k, star (ψ k) * (((d k : ℝ) : ℂ) * ψ k) from by
      simp [Matrix.dotProduct, Matrix.mulVec_diagonal]]
    rw [show (∑ k, star (ψ k) * (((d k : ℝ) : ℂ) * ψ k)) =
        ∑ k : Fin 4, ((d k * Complex.normSq (ψ k) : ℝ) : ℂ) from
      Finset.sum_congr rfl fun k _ => hterm k]
    rw [Complex.re_sum]
    simp
  have hnorm : ∑ k, Complex.normSq (ψ k) = 1 := by
    have h1 : (star ψ ⬝ᵥ ψ) = ∑ k : Fin 4, ((Complex.normSq (ψ k) : ℝ) : ℂ) := by
      simp [Matrix.dotProduct, Complex.star_def, Complex.normSq_eq_conj_mul_self]
    rw [h1] at hψ
    have := congrArg Complex.re hψ
    simpa [Complex.re_sum] using this
  rw [hexp]
  calc c = c * ∑ k, Complex.normSq (ψ k) := by rw [hnorm, mul_one]
    _ = ∑ k, c * Complex.normSq (ψ k) := Finset.mul_sum _ _ _
    _ ≤ ∑ k, d k * Complex.normSq (ψ k) :=
        Finset.sum_le_sum fun k _ =>
          mul_le_mul_of_nonneg_right (hc k) (Complex.normSq_nonneg _)

/-- The real diagonal of the coding-assignment cost Hamiltonian. -/
noncomputable def costDiag : Fin 4 → ℝ := ![-(3 / 2), 3 / 2, 1 / 2, -(1 / 2)]

lemma Hc_assignment_diag_real :
    Hc_assignment = Matrix.diagonal fun k => ((costDiag k : ℝ) : ℂ) := by
  rw [Hc_assignment_eq, Matrix.diagonal_eq_diagonal_iff]
  intro i
  fin_cases i <;> norm_num [costDiag, Matrix.vecHead, Matrix.vecTail]

lemma Hm_assignment_hermitian : Hm_assignment.IsHermitian := by
  rw [Matrix.IsHermitian, Hm_assignment_eq]
  ext i j
  fin_cases i <;> fin_cases j <;>
    simp [Matrix.conjTranspose_apply, Matrix.vecHead, Matrix.vecTail]

lemma Hc_assignment_hermitian : Hc_assignment.IsHermitian := by
  rw [Matrix.IsHermitian, Hc_assignment_eq]
  ext i j
  fin_cases i <;> fin_cases j <;>
    simp +decide [Matrix.conjTranspose_apply, Matrix.diagonal,
      Matrix.vecHead, Matrix.vecTail]



lemma evaluate_some_inv (Hmix Hcost H : Mat4) (p : ℕ) (v : List ℝ) (r : ℝ)
    (h : evaluate_hamiltonian Hmix Hcost p v H = some r) :
    ∃ L : List Mat4,
      circuit_factors Hmix Hcost (v.take (v.length / 2)) (v.drop (v.length / 2)) p =
        some L ∧
      r = (expectation H (L.prod *ᵥ init_state)).re := by
  rw [evaluate_hamiltonian, create_circuit] at h
  rcases hcf : circuit_factors Hmix Hcost (v.take (v.length / 2))
      (v.drop (v.length / 2)) p with _ | L
  · rw [hcf] at h
    simp at h
  · rw [hcf] at h
    simp at h
    exact ⟨L, rfl, h.symm⟩

lemma costDiag_lower : ∀ k : Fin 4, -(3 / 2) ≤ costDiag k := by
  intro k
  fin_cases k <;> norm_num [costDiag, Matrix.vecHead, Matrix.vecTail]

/-- C4: the variational bound.  Whatever parameter vector the optimizer ends
at (in particular the returned `result.fun`, which is the objective evaluated
at `result.x`), the value of the objective on the 2-qubit cost Hamiltonian
`H_c = -Z0 Z1 - 0.5 Z0` is at least the true minimum eigenvalue `-1.5`: the
variational value never undershoots the ground energy, for any depth `p`. -/
theorem variational_value_ge_ground_energy (p : ℕ) (v : List ℝ) (r : ℝ)
    (h : evaluate_hamiltonian Hm_assignment Hc_assignment p v Hc_assignment = some r) :
    -1.5 ≤ r := by
  obtain ⟨L, hL, hr⟩ := evaluate_some_inv _ _ _ _ _ _ h
  have hU := factors_unitary Hm_assignment Hc_assignment Hm_assignment_hermitian
    Hc_assignment_hermitian _ _ p L hL
  have hψ : star (L.prod *ᵥ init_state) ⬝ᵥ (L.prod *ᵥ init_state) = 1 := by
    rw [unitary_preserves_inner L.prod hU init_state, init_inner]
  have hb := expectation_diagonal_re_ge costDiag (-(3 / 2)) costDiag_lower
    (L.prod *ᵥ init_state) hψ
  rw [← Hc_assignment_diag_real] at hb
  rw [hr]
  calc (-1.5 : ℝ) = -(3 / 2) := by norm_num
    _ ≤ _ := hb

lemma expectation_Hc_assignment_init : expectation Hc_assignment init_state = 0 := by
  rw [expectation, Hc_assignment_eq, init_state_eq]
  simp [Matrix.dotProduct, Matrix.mulVec, Matrix.diagonal, Fin.sum_univ_four,
    Matrix.vecHead, Matrix.vecTail]

/-- Witness for the C4 theorem at `p = 0`, the empty parameter vector, where
the objective returns the initial-state expectation `0 ≥ -1.5`. -/
theorem variational_value_ge_ground_energy_witness :
    (evaluate_hamiltonian Hm_assignment Hc_assignment 0 [] Hc_assignment = some 0) ∧
    (-1.5 : ℝ) ≤ 0 := by
  have h0 : evaluate_hamiltonian Hm_assignment Hc_assignment 0 [] Hc_assignment =
      some 0 := by
    rw [evaluate_of_zero_input Hm_assignment Hc_assignment Hc_assignment 0 []
      (Nat.zero_le _) (by intro x hx; simp at hx)]
    rw [expectation_Hc_assignment_init]
    norm_num
  exact ⟨h0, variational_value_ge_ground_energy 0 [] 0 h0⟩



/-- The (unnormalised) Hadamard-tensor-Hadamard eigenbasis of the mixing
Hamiltonian. -/
def VH : Mat4 := !![1, 1, 1, 1; 1, -1, 1, -1; 1, 1, -1, -1; 1, -1, -1, 1]

/-- Inverse of `VH` (it satisfies `VH * VH = 4`). -/
noncomputable def VHinv : Mat4 := (1 / 4 : ℂ) • VH

lemma VH_mul_self : VH * VH = (4 : ℂ) • 1 := by
  ext i j
  fin_cases i <;> fin_cases j <;>
    simp [VH, Matrix.mul_apply, Fin.sum_univ_four, Matrix.vecHead, Matrix.vecTail,
      Matrix.one_apply] <;> norm_num

lemma VH_mul_VHinv : VH * VHinv = 1 := by
  rw [VHinv, Matrix.mul_smul, VH_mul_self, smul_smul]
  norm_num

lemma VHinv_mul_VH : VHinv * VH = 1 := by
  rw [VHinv, Matrix.smul_mul, VH_mul_self, smul_smul]
  norm_num

lemma VH_isUnit : IsUnit VH :=
  ⟨⟨VH, VHinv, VH_mul_VHinv, VHinv_mul_VH⟩, rfl⟩

lemma VH_inv_eq : VH⁻¹ = VHinv := Matrix.inv_eq_right_inv VH_mul_VHinv

lemma Hm_gen_decomp (β : ℝ) :
    (-((β : ℂ) * Complex.I)) • Hm =
      VH * Matrix.diagonal
        ![2 * (β : ℂ) * Complex.I, 0, 0, -(2 * (β : ℂ) * Complex.I)] * VHinv := by
  rw [Hm_eq, VHinv, Matrix.mul_smul]
  ext i j
  rw [Matrix.smul_apply, Matrix.smul_apply, Matrix.mul_apply]
  simp only [Matrix.mul_diagonal, Fin.sum_univ_four]
  fin_cases i <;> fin_cases j <;>
    simp [VH, Matrix.vecHead, Matrix.vecTail] <;> ring

lemma evolve_Hm_eq (β : ℝ) :
    evolve Hm β = VH * Matrix.diagonal
      ![Complex.exp (2 * (β : ℂ) * Complex.I), 1, 1,
        Complex.exp (-(2 * (β : ℂ) * Complex.I))] * VHinv := by
  rw [evolve, Hm_gen_decomp, ← VH_inv_eq, Matrix.exp_conj ℂ VH _ VH_isUnit, VH_inv_eq,
    Matrix.exp_diagonal]
  congr 2
  rw [Matrix.diagonal_eq_diagonal_iff]
  intro k
  fin_cases k <;>
    simp [Matrix.vecHead, Matrix.vecTail, ← Complex.exp_eq_exp_ℂ]

lemma evolve_Hc_eq (γ : ℝ) :
    evolve Hc γ = Matrix.diagonal
      ![Complex.exp ((γ : ℂ) * Complex.I), Complex.exp (-((γ : ℂ) * Complex.I)),
        Complex.exp (-((γ : ℂ) * Complex.I)), Complex.exp ((γ : ℂ) * Complex.I)] := by
  rw [evolve, Hc_eq, ← Matrix.diagonal_smul, Matrix.exp_diagonal,
    Matrix.diagonal_eq_diagonal_iff]
  intro k
  fin_cases k <;>
    simp [Matrix.vecHead, Matrix.vecTail, ← Complex.exp_eq_exp_ℂ] <;> ring_nf



/-- The phase `exp(i pi/4)`. -/
noncomputable def Ep : ℂ := Complex.exp (((Real.pi / 4 : ℝ) : ℂ) * Complex.I)

/-- The phase `exp(-i pi/4)`. -/
noncomputable def Em : ℂ := Complex.exp (-(((Real.pi / 4 : ℝ) : ℂ) * Complex.I))

lemma exp_half_pi_I : Complex.exp (((Real.pi / 2 : ℝ) : ℂ) * Complex.I) = Complex.I := by
  rw [Complex.exp_mul_I, ← Complex.ofReal_cos, ← Complex.ofReal_sin,
    Real.cos_pi_div_two, Real.sin_pi_div_two]
  simp

lemma exp_neg_half_pi_I :
    Complex.exp (-(((Real.pi / 2 : ℝ) : ℂ) * Complex.I)) = -Complex.I := by
  rw [show -(((Real.pi / 2 : ℝ) : ℂ) * Complex.I) =
      ((-(Real.pi / 2) : ℝ) : ℂ) * Complex.I from by push_cast; ring]
  rw [Complex.exp_mul_I, ← Complex.ofReal_cos, ← Complex.ofReal_sin,
    Real.cos_neg, Real.sin_neg, Real.cos_pi_div_two, Real.sin_pi_div_two]
  simp

lemma Ep_mul_Em : Ep * Em = 1 := by
  rw [Ep, Em, ← Complex.exp_add]
  simp

lemma Ep_mul_Ep : Ep * Ep = Complex.I := by
  rw [Ep, ← Complex.exp_add, show ((Real.pi / 4 : ℝ) : ℂ) * Complex.I +
      ((Real.pi / 4 : ℝ) : ℂ) * Complex.I = ((Real.pi / 2 : ℝ) : ℂ) * Complex.I from by
    push_cast
    ring]
  exact exp_half_pi_I

lemma Em_mul_Em : Em * Em = -Complex.I := by
  rw [Em, ← Complex.exp_add, show -(((Real.pi / 4 : ℝ) : ℂ) * Complex.I) +
      -(((Real.pi / 4 : ℝ) : ℂ) * Complex.I) =
        -(((Real.pi / 2 : ℝ) : ℂ) * Complex.I) from by
    push_cast
    ring]
  exact exp_neg_half_pi_I

lemma evolve_Hm_eighth :
    evolve Hm (Real.pi / 8) = VH * Matrix.diagonal ![Ep, 1, 1, Em] * VHinv := by
  rw [evolve_Hm_eq]
  congr 2
  rw [Matrix.diagonal_eq_diagonal_iff]
  intro k
  fin_cases k <;> simp [Ep, Em, Matrix.vecHead, Matrix.vecTail] <;> congr 1 <;>
    push_cast <;> ring

lemma evolve_Hc_quarter :
    evolve Hc (Real.pi / 4) = Matrix.diagonal ![Ep, Em, Em, Ep] := by
  rw [evolve_Hc_eq, Matrix.diagonal_eq_diagonal_iff]
  intro k
  fin_cases k <;> simp [Ep, Em, Matrix.vecHead, Matrix.vecTail]

lemma uc_quarter_init :
    evolve Hc (Real.pi / 4) *ᵥ init_state = ![Ep / 2, Em / 2, Em / 2, Ep / 2] := by
  rw [evolve_Hc_quarter, init_state_eq]
  funext k
  fin_cases k <;>
    simp [Matrix.mulVec_diagonal, Matrix.vecHead, Matrix.vecTail] <;> ring

lemma um_eighth_init :
    evolve Hm (Real.pi / 8) *ᵥ init_state = ![Ep / 2, Ep / 2, Ep / 2, Ep / 2] := by
  rw [evolve_Hm_eighth, init_state_eq, ← Matrix.mulVec_mulVec, ← Matrix.mulVec_mulVec]
  have h1 : VHinv *ᵥ (fun _ => (1 / 2 : ℂ)) = ![1 / 2, 0, 0, 0] := by
    funext k
    fin_cases k <;>
      simp [VHinv, VH, Matrix.mulVec, Matrix.dotProduct, Fin.sum_univ_four,
        Matrix.vecHead, Matrix.vecTail] <;> ring
  rw [h1]
  have h2 : Matrix.diagonal ![Ep, 1, 1, Em] *ᵥ ![1 / 2, 0, 0, 0] =
      ![Ep / 2, 0, 0, 0] := by
    funext k
    fin_cases k <;>
      simp [Matrix.mulVec_diagonal, Matrix.vecHead, Matrix.vecTail] <;> ring
  rw [h2]
  funext k
  fin_cases k <;>
    simp [VH, Matrix.mulVec, Matrix.dotProduct, Fin.sum_univ_four,
      Matrix.vecHead, Matrix.vecTail] <;> ring

lemma state_A :
    evolve Hc (Real.pi / 4) *ᵥ (evolve Hm (Real.pi / 8) *ᵥ init_state) =
      ![Complex.I / 2, 1 / 2, 1 / 2, Complex.I / 2] := by
  rw [um_eighth_init, evolve_Hc_quarter]
  funext k
  fin_cases k <;>
    simp [Matrix.mulVec_diagonal, Matrix.vecHead, Matrix.vecTail] <;>
    first
      | linear_combination (1 / 2 : ℂ) * Ep_mul_Ep
      | linear_combination (1 / 2 : ℂ) * Ep_mul_Em

lemma state_B :
    evolve Hm (Real.pi / 8) *ᵥ (evolve Hc (Real.pi / 4) *ᵥ init_state) =
      ![(1 + Complex.I) / 2, 0, 0, (1 + Complex.I) / 2] := by
  rw [uc_quarter_init, evolve_Hm_eighth, ← Matrix.mulVec_mulVec, ← Matrix.mulVec_mulVec]
  have h1 : VHinv *ᵥ ![Ep / 2, Em / 2, Em / 2, Ep / 2] =
      ![(Ep + Em) / 4, 0, 0, (Ep - Em) / 4] := by
    funext k
    fin_cases k <;>
      simp [VHinv, VH, Matrix.mulVec, Matrix.dotProduct, Fin.sum_univ_four,
        Matrix.vecHead, Matrix.vecTail] <;> ring
  rw [h1]
  have h2 : Matrix.diagonal ![Ep, 1, 1, Em] *ᵥ ![(Ep + Em) / 4, 0, 0, (Ep - Em) / 4] =
      ![(1 + Complex.I) / 4, 0, 0, (1 + Complex.I) / 4] := by
    funext k
    fin_cases k <;>
      simp [Matrix.mulVec_diagonal, Matrix.vecHead, Matrix.vecTail]
    · linear_combination (1 / 4 : ℂ) * Ep_mul_Ep + (1 / 4 : ℂ) * Ep_mul_Em
    · linear_combination (1 / 4 : ℂ) * Ep_mul_Em - (1 / 4 : ℂ) * Em_mul_Em
  rw [h2]
  funext k
  fin_cases k <;>
    simp [VH, Matrix.mulVec, Matrix.dotProduct, Fin.sum_univ_four,
      Matrix.vecHead, Matrix.vecTail] <;> ring



lemma expectation_state_A :
    (expectation Hc ![Complex.I / 2, 1 / 2, 1 / 2, Complex.I / 2]).re = 0 := by
  rw [expectation, Hc_eq]
  simp [Matrix.dotProduct, Matrix.mulVec_diagonal, Fin.sum_univ_four,
    Matrix.vecHead, Matrix.vecTail, Complex.ext_iff]
  norm_num [Complex.div_re, Complex.div_im, Complex.normSq, Complex.ext_iff]

lemma expectation_state_B :
    (expectation Hc ![(1 + Complex.I) / 2, 0, 0, (1 + Complex.I) / 2]).re = -1 := by
  rw [expectation, Hc_eq]
  simp [Matrix.dotProduct, Matrix.mulVec_diagonal, Fin.sum_univ_four,
    Matrix.vecHead, Matrix.vecTail, Complex.ext_iff]
  norm_num [Complex.div_re, Complex.div_im, Complex.normSq, Complex.ext_iff]

lemma eval_swap_A :
    evaluate_hamiltonian Hm Hc 2 [0, Real.pi / 8, Real.pi / 4, 0] Hc = some 0 := by
  have h := evaluate_eq Hm Hc Hc 2 [0, Real.pi / 8, Real.pi / 4, 0] (by norm_num)
  rw [show ((([(0 : ℝ), Real.pi / 8, Real.pi / 4, 0].take
      ([(0 : ℝ), Real.pi / 8, Real.pi / 4, 0].length / 2)).take 2).zip
      (([(0 : ℝ), Real.pi / 8, Real.pi / 4, 0].drop
      ([(0 : ℝ), Real.pi / 8, Real.pi / 4, 0].length / 2)).take 2)) =
      [((0 : ℝ), Real.pi / 4), (Real.pi / 8, (0 : ℝ))] from rfl] at h
  rw [h]
  have hs : alternating_evolution_state Hm Hc
      [((0 : ℝ), Real.pi / 4), (Real.pi / 8, (0 : ℝ))] =
        ![Complex.I / 2, 1 / 2, 1 / 2, Complex.I / 2] := by
    simp only [alternating_evolution_state]
    rw [evolve_zero, evolve_zero, Matrix.one_mulVec, Matrix.one_mulVec, state_A]
  rw [hs, expectation_state_A]

lemma eval_swap_B :
    evaluate_hamiltonian Hm Hc 2 [Real.pi / 8, 0, 0, Real.pi / 4] Hc = some (-1) := by
  have h := evaluate_eq Hm Hc Hc 2 [Real.pi / 8, 0, 0, Real.pi / 4] (by norm_num)
  rw [show ((([Real.pi / 8, (0 : ℝ), 0, Real.pi / 4].take
      ([Real.pi / 8, (0 : ℝ), 0, Real.pi / 4].length / 2)).take 2).zip
      (([Real.pi / 8, (0 : ℝ), 0, Real.pi / 4].drop
      ([Real.pi / 8, (0 : ℝ), 0, Real.pi / 4].length / 2)).take 2)) =
      [(Real.pi / 8, (0 : ℝ)), ((0 : ℝ), Real.pi / 4)] from rfl] at h
  rw [h]
  have hs : alternating_evolution_state Hm Hc
      [(Real.pi / 8, (0 : ℝ)), ((0 : ℝ), Real.pi / 4)] =
        ![(1 + Complex.I) / 2, 0, 0, (1 + Complex.I) / 2] := by
    simp only [alternating_evolution_state]
    rw [evolve_zero, evolve_zero, Matrix.one_mulVec, Matrix.one_mulVec, state_B]
  rw [hs, expectation_state_B]

/-- C7: for `p = 2` the objective is not invariant under reordering the
`(beta i, gamma i)` step pairs: at the parameter vector
`beta = [0, pi/8], gamma = [pi/4, 0]` the objective returns `0`, while at the
pair-swapped vector `beta = [pi/8, 0], gamma = [0, pi/4]` it returns `-1` —
the per-step evolution operators do not commute. -/
theorem step_order_changes_objective :
    evaluate_hamiltonian Hm Hc 2 [0, Real.pi / 8, Real.pi / 4, 0] Hc ≠
      evaluate_hamiltonian Hm Hc 2 [Real.pi / 8, 0, 0, Real.pi / 4] Hc := by
  rw [eval_swap_A, eval_swap_B]
  simp


end VarCircuits
